import Mathlib

/-!
Verification of the implementation-shortfall TCA engine (pyis.py).

The Python source is shallowly embedded: prices and quantities become
rationals, optional attributes (`end_price`, `fee`) become `Option`,
attribute/null errors become an explicit error component, and the
mutable engine object becomes explicit state passing on a `TCAEngine`
record.  Each engine method returns the state after the call together
with `none` (normal return) or `some e` (the Python exception raised).
-/

/-- The `Fee` value object: a flat commission. -/
structure Fee where
  commission : ℚ
deriving DecidableEq

/-- `Fee.total_fee` returns the commission. -/
def Fee.total_fee (f : Fee) : ℚ :=
  f.commission

/-- The `Transaction` value object.  `end_price` and `fee` default to
`None` in the source, embedded as `Option`. -/
structure Transaction where
  name : String
  share_num : ℚ
  execute_num : ℚ
  delay_price : ℚ
  execute_avg_price : ℚ
  determined_price : ℚ
  end_price : Option ℚ
  fee : Option Fee
deriving DecidableEq

/-- `Transaction.is_fully_executed`: `share_num == execute_num`. -/
def Transaction.is_fully_executed (t : Transaction) : Bool :=
  t.share_num == t.execute_num

/-- `Transaction.is_valition`: when the transaction is not fully
executed it returns the boolean `end_price is not None`; otherwise the
Python function falls off the end and returns `None`. -/
def Transaction.is_valition (t : Transaction) : Option Bool :=
  if t.is_fully_executed then none else some t.end_price.isSome

/-- The `Cost` record.  `execution_cost` and `total_cost` are attrs
factory defaults, always filled in from the other fields at
construction (see `Cost.make`). -/
structure Cost where
  cost_name : String
  delay_cost : ℚ
  trading_cost : ℚ
  opportunity_cost : ℚ
  fee_cost : ℚ
  execution_cost : ℚ
  total_cost : ℚ
deriving DecidableEq

/-- The five-argument `Cost(...)` constructor used by the engine: the
two derived fields are computed by the attrs factories,
`execution_cost = trading_cost + delay_cost` and
`total_cost = execution_cost + opportunity_cost + fee_cost`. -/
def Cost.make (n : String) (delay trading opp fee : ℚ) : Cost :=
  let execution := trading + delay
  { cost_name := n
    delay_cost := delay
    trading_cost := trading
    opportunity_cost := opp
    fee_cost := fee
    execution_cost := execution
    total_cost := execution + opp + fee }

/-- The exceptions the engine can raise. -/
inductive PyError where
  | attributeError
  | typeError
  | notImplementedError
deriving DecidableEq

/-- Engine state: the two lists owned by `TCAEngine.__init__`. -/
structure TCAEngine where
  transactions : List Transaction
  cost_results : List Cost
deriving DecidableEq

/-- `TCAEngine.__init__`: both lists start empty. -/
def TCAEngine.init : TCAEngine :=
  { transactions := [], cost_results := [] }

/-- The abstract `TCAEngine.tca_run` raises `NotImplementedError`. -/
def TCAEngine.tca_run (s : TCAEngine) (_ : Transaction) : TCAEngine × Option PyError :=
  (s, some .notImplementedError)

/-- `TCAEngine.reset_result` empties both lists. -/
def TCAEngine.reset_result (_ : TCAEngine) : TCAEngine :=
  { transactions := [], cost_results := [] }

namespace ImplementationShortfallEngine

/-- `complete_execution`: reads `transaction.fee` (raising
`AttributeError` on `None`), then appends one Cost record. -/
def complete_execution (s : TCAEngine) (t : Transaction) : TCAEngine × Option PyError :=
  match t.fee with
  | none => (s, some .attributeError)
  | some f =>
    let executed_cost := t.share_num * (t.execute_avg_price - t.determined_price) + f.total_fee
    ({ s with cost_results := s.cost_results ++
        [Cost.make ("Executation Cost " ++ t.name) 0 executed_cost 0 f.total_fee] }, none)

/-- `opportunity_cost`: subtracting from a `None` end price raises
`TypeError`; a `None` fee raises `AttributeError`; otherwise appends
one Cost record. -/
def opportunity_cost (s : TCAEngine) (t : Transaction) : TCAEngine × Option PyError :=
  let executed_cost := t.execute_num * (t.execute_avg_price - t.determined_price)
  match t.end_price with
  | none => (s, some .typeError)
  | some ep =>
    let opp_cost := (t.share_num - t.execute_num) * (ep - t.determined_price)
    match t.fee with
    | none => (s, some .attributeError)
    | some f =>
      ({ s with cost_results := s.cost_results ++
          [Cost.make ("Opportunity Cost " ++ t.name) 0 executed_cost opp_cost f.total_fee] }, none)

/-- `expanded_implementation_shortfall`: same error behaviour as
`opportunity_cost`, then appends one Cost record. -/
def expanded_implementation_shortfall (s : TCAEngine) (t : Transaction) :
    TCAEngine × Option PyError :=
  let delay_cost := t.share_num * (t.delay_price - t.determined_price)
  let trading_cost := t.execute_num * (t.execute_avg_price - t.delay_price)
  match t.end_price with
  | none => (s, some .typeError)
  | some ep =>
    let opp_cost := (t.share_num - t.execute_num) * (ep - t.delay_price)
    match t.fee with
    | none => (s, some .attributeError)
    | some f =>
      ({ s with cost_results := s.cost_results ++
          [Cost.make ("Expanded IS Cost " ++ t.name) delay_cost trading_cost opp_cost
            f.total_fee] }, none)

/-- `tca_run(transaction, reset)`: optionally clears state, then
dispatches on `is_fully_executed`. -/
def tca_run (s : TCAEngine) (t : Transaction) (reset : Bool) : TCAEngine × Option PyError :=
  let s1 := if reset then s.reset_result else s
  if t.is_fully_executed then complete_execution s1 t
  else
    match opportunity_cost s1 t with
    | (s2, none) => expanded_implementation_shortfall s2 t
    | (s2, some e) => (s2, some e)

/-- `batch_tca_run`: runs `tca_run(t, reset=False)` over the list in
order; an exception aborts the remaining iterations. -/
def batch_tca_run : TCAEngine → List Transaction → TCAEngine × Option PyError
  | s, [] => (s, none)
  | s, t :: ts =>
    match tca_run s t false with
    | (s1, none) => batch_tca_run s1 ts
    | (s1, some _e) => (s1, some _e)

end ImplementationShortfallEngine

/-- The operations a caller can perform on an
`ImplementationShortfallEngine` after construction. -/
inductive EngineOp where
  | run (t : Transaction) (reset : Bool)
  | batch (ts : List Transaction)
  | reset_result
deriving DecidableEq

/-- Applying one operation to the engine state (exceptions propagate to
the caller, the state reached at the raise point is kept). -/
def applyOp (s : TCAEngine) : EngineOp → TCAEngine
  | .run t b => (ImplementationShortfallEngine.tca_run s t b).1
  | .batch ts => (ImplementationShortfallEngine.batch_tca_run s ts).1
  | .reset_result => s.reset_result

/-- Running a sequence of engine operations from a given state. -/
def runOps : TCAEngine → List EngineOp → TCAEngine
  | s, [] => s
  | s, op :: ops => runOps (applyOp s op) ops

/-- Sample fully executed transaction from the program entry point
(`trans2`, with 10.25 = 41/4 and 10.5 = 21/2). -/
def trans2 : Transaction :=
  { name := "tran2", share_num := 5000, execute_num := 5000, delay_price := 41/4,
    execute_avg_price := 21/2, determined_price := 10, end_price := some 11,
    fee := some { commission := 100 } }

/-- Sample partially executed transaction from the program entry point
(`trans1`). -/
def trans1 : Transaction :=
  { name := "tran1", share_num := 5000, execute_num := 4000, delay_price := 41/4,
    execute_avg_price := 21/2, determined_price := 10, end_price := some 11,
    fee := some { commission := 80 } }

/-- Claim C1: for every transaction with a fee and
`execute_num == share_num`, `tca_run` appends exactly one Cost record
with `delay_cost = 0`, `opportunity_cost = 0`,
`trading_cost = share_num * (execute_avg_price - determined_price) + fee.total_fee()`
and `fee_cost = fee.total_fee()`. -/
theorem claim_C1_complete_execution_single_cost (s : TCAEngine) (t : Transaction) (f : Fee)
    (b : Bool) (hf : t.fee = some f) (he : t.execute_num = t.share_num) :
    ImplementationShortfallEngine.tca_run s t b =
      ({ transactions := if b then [] else s.transactions,
         cost_results := (if b then [] else s.cost_results) ++
           [Cost.make ("Executation Cost " ++ t.name) 0
              (t.share_num * (t.execute_avg_price - t.determined_price) + f.total_fee)
              0 f.total_fee] }, none) := by
  have hfull : t.is_fully_executed = true := by
    simp [Transaction.is_fully_executed, he]
  cases b <;>
    simp [ImplementationShortfallEngine.tca_run, hfull,
      ImplementationShortfallEngine.complete_execution, hf, TCAEngine.reset_result]

/-- Witness for C1 at the sample fully executed transaction. -/
theorem claim_C1_complete_execution_single_cost_witness :
    trans2.fee = some { commission := 100 } ∧ trans2.execute_num = trans2.share_num ∧
    ImplementationShortfallEngine.tca_run TCAEngine.init trans2 true =
      ({ transactions := [],
         cost_results :=
           [Cost.make ("Executation Cost " ++ trans2.name) 0
              (trans2.share_num * (trans2.execute_avg_price - trans2.determined_price) +
                Fee.total_fee { commission := 100 })
              0 (Fee.total_fee { commission := 100 })] }, none) :=
  ⟨rfl, by decide,
    claim_C1_complete_execution_single_cost TCAEngine.init trans2 { commission := 100 }
      true rfl (by decide)⟩

/-- Claim C2: for every transaction with a fee, an end price and
`execute_num != share_num`, `tca_run` appends exactly two Cost records,
in order Opportunity Cost then Expanded IS Cost, with the Perold and
Wagner component formulas. -/
theorem claim_C2_partial_two_costs (s : TCAEngine) (t : Transaction) (f : Fee) (ep : ℚ)
    (b : Bool) (hf : t.fee = some f) (hep : t.end_price = some ep)
    (hne : t.execute_num ≠ t.share_num) :
    ImplementationShortfallEngine.tca_run s t b =
      ({ transactions := if b then [] else s.transactions,
         cost_results := (if b then [] else s.cost_results) ++
           [Cost.make ("Opportunity Cost " ++ t.name) 0
              (t.execute_num * (t.execute_avg_price - t.determined_price))
              ((t.share_num - t.execute_num) * (ep - t.determined_price)) f.total_fee,
            Cost.make ("Expanded IS Cost " ++ t.name)
              (t.share_num * (t.delay_price - t.determined_price))
              (t.execute_num * (t.execute_avg_price - t.delay_price))
              ((t.share_num - t.execute_num) * (ep - t.delay_price)) f.total_fee] },
       none) := by
  have hfull : t.is_fully_executed = false := by
    simp only [Transaction.is_fully_executed, beq_eq_false_iff_ne]
    exact fun h => hne h.symm
  cases b <;>
    simp [ImplementationShortfallEngine.tca_run, hfull,
      ImplementationShortfallEngine.opportunity_cost,
      ImplementationShortfallEngine.expanded_implementation_shortfall, hf, hep,
      TCAEngine.reset_result]

/-- Witness for C2 at the sample partially executed transaction. -/
theorem claim_C2_partial_two_costs_witness :
    trans1.fee = some { commission := 80 } ∧ trans1.end_price = some 11 ∧
    trans1.execute_num ≠ trans1.share_num ∧
    ImplementationShortfallEngine.tca_run TCAEngine.init trans1 true =
      ({ transactions := [],
         cost_results :=
           [Cost.make ("Opportunity Cost " ++ trans1.name) 0
              (trans1.execute_num * (trans1.execute_avg_price - trans1.determined_price))
              ((trans1.share_num - trans1.execute_num) * (11 - trans1.determined_price))
              (Fee.total_fee { commission := 80 }),
            Cost.make ("Expanded IS Cost " ++ trans1.name)
              (trans1.share_num * (trans1.delay_price - trans1.determined_price))
              (trans1.execute_num * (trans1.execute_avg_price - trans1.delay_price))
              ((trans1.share_num - trans1.execute_num) * (11 - trans1.delay_price))
              (Fee.total_fee { commission := 80 })] }, none) :=
  ⟨rfl, rfl, by decide,
    claim_C2_partial_two_costs TCAEngine.init trans1 { commission := 80 } 11 true rfl rfl
      (by decide)⟩

/-- The sum-of-parts invariant of a `Cost` record. -/
def CostOk (c : Cost) : Prop :=
  c.execution_cost = c.delay_cost + c.trading_cost ∧
  c.total_cost = c.execution_cost + c.opportunity_cost + c.fee_cost

instance (c : Cost) : Decidable (CostOk c) := by
  unfold CostOk
  infer_instance

/-- Every record built by the `Cost` constructor satisfies the
sum-of-parts invariant. -/
theorem costOk_make (n : String) (d tr o f : ℚ) : CostOk (Cost.make n d tr o f) := by
  refine ⟨?_, ?_⟩
  · simp only [Cost.make]
    ring
  · simp [Cost.make]

theorem complete_execution_costOk (s : TCAEngine) (t : Transaction)
    (h : ∀ c ∈ s.cost_results, CostOk c) :
    ∀ c ∈ (ImplementationShortfallEngine.complete_execution s t).1.cost_results, CostOk c := by
  cases hf : t.fee with
  | none => simpa [ImplementationShortfallEngine.complete_execution, hf] using h
  | some f =>
    simp only [ImplementationShortfallEngine.complete_execution, hf, List.mem_append,
      List.mem_singleton]
    rintro c (hc | rfl)
    · exact h c hc
    · exact costOk_make ..

theorem opportunity_cost_costOk (s : TCAEngine) (t : Transaction)
    (h : ∀ c ∈ s.cost_results, CostOk c) :
    ∀ c ∈ (ImplementationShortfallEngine.opportunity_cost s t).1.cost_results, CostOk c := by
  cases hep : t.end_price with
  | none => simpa [ImplementationShortfallEngine.opportunity_cost, hep] using h
  | some ep =>
    cases hf : t.fee with
    | none => simpa [ImplementationShortfallEngine.opportunity_cost, hep, hf] using h
    | some f =>
      simp only [ImplementationShortfallEngine.opportunity_cost, hep, hf, List.mem_append,
        List.mem_singleton]
      rintro c (hc | rfl)
      · exact h c hc
      · exact costOk_make ..

theorem expanded_costOk (s : TCAEngine) (t : Transaction)
    (h : ∀ c ∈ s.cost_results, CostOk c) :
    ∀ c ∈ (ImplementationShortfallEngine.expanded_implementation_shortfall s t).1.cost_results,
      CostOk c := by
  cases hep : t.end_price with
  | none =>
    simpa [ImplementationShortfallEngine.expanded_implementation_shortfall, hep] using h
  | some ep =>
    cases hf : t.fee with
    | none =>
      simpa [ImplementationShortfallEngine.expanded_implementation_shortfall, hep, hf] using h
    | some f =>
      simp only [ImplementationShortfallEngine.expanded_implementation_shortfall, hep, hf,
        List.mem_append, List.mem_singleton]
      rintro c (hc | rfl)
      · exact h c hc
      · exact costOk_make ..

theorem tca_run_costOk (s : TCAEngine) (t : Transaction) (b : Bool)
    (h : ∀ c ∈ s.cost_results, CostOk c) :
    ∀ c ∈ (ImplementationShortfallEngine.tca_run s t b).1.cost_results, CostOk c := by
  have h1 : ∀ c ∈ (if b then s.reset_result else s).cost_results, CostOk c := by
    cases b with
    | false => simpa using h
    | true => intro c hc; simp [TCAEngine.reset_result] at hc
  unfold ImplementationShortfallEngine.tca_run
  cases hfull : t.is_fully_executed with
  | true =>
    simp only [hfull, if_true]
    exact complete_execution_costOk _ t h1
  | false =>
    simp only [hfull, Bool.false_eq_true, if_false]
    rcases hoc : ImplementationShortfallEngine.opportunity_cost
        (if b then s.reset_result else s) t with ⟨s2, e⟩
    have h2 : ∀ c ∈ s2.cost_results, CostOk c := by
      have := opportunity_cost_costOk (if b then s.reset_result else s) t h1
      rwa [hoc] at this
    cases e with
    | none => simpa using expanded_costOk s2 t h2
    | some e => simpa using h2

theorem batch_tca_run_costOk (ts : List Transaction) :
    ∀ (s : TCAEngine), (∀ c ∈ s.cost_results, CostOk c) →
      ∀ c ∈ (ImplementationShortfallEngine.batch_tca_run s ts).1.cost_results, CostOk c := by
  induction ts with
  | nil =>
    intro s h
    simpa [ImplementationShortfallEngine.batch_tca_run] using h
  | cons t ts ih =>
    intro s h
    unfold ImplementationShortfallEngine.batch_tca_run
    rcases hr : ImplementationShortfallEngine.tca_run s t false with ⟨s1, e⟩
    have h1 : ∀ c ∈ s1.cost_results, CostOk c := by
      have := tca_run_costOk s t false h
      rwa [hr] at this
    cases e with
    | none => simpa using ih s1 h1
    | some e => simpa using h1

theorem applyOp_costOk (s : TCAEngine) (op : EngineOp)
    (h : ∀ c ∈ s.cost_results, CostOk c) :
    ∀ c ∈ (applyOp s op).cost_results, CostOk c := by
  cases op with
  | run t b => exact tca_run_costOk s t b h
  | batch ts => exact batch_tca_run_costOk ts s h
  | reset_result => intro c hc; simp [applyOp, TCAEngine.reset_result] at hc

/-- Claim C3: every Cost record the engine ever accumulates, under any
sequence of `tca_run`, `batch_tca_run` and `reset_result` calls starting
from a fresh engine, satisfies
`execution_cost = delay_cost + trading_cost` and
`total_cost = execution_cost + opportunity_cost + fee_cost` (the fields
are fixed by the constructor and the records are never mutated). -/
theorem claim_C3_cost_invariant (ops : List EngineOp) (c : Cost)
    (hc : c ∈ (runOps TCAEngine.init ops).cost_results) :
    c.execution_cost = c.delay_cost + c.trading_cost ∧
    c.total_cost = c.execution_cost + c.opportunity_cost + c.fee_cost := by
  have key : ∀ (ops : List EngineOp) (s : TCAEngine), (∀ c ∈ s.cost_results, CostOk c) →
      ∀ c ∈ (runOps s ops).cost_results, CostOk c := by
    intro ops
    induction ops with
    | nil => intro s h; simpa [runOps] using h
    | cons op ops ih =>
      intro s h
      simp only [runOps]
      exact ih (applyOp s op) (applyOp_costOk s op h)
  exact key ops TCAEngine.init (by simp [TCAEngine.init]) c hc

/-- The Cost record produced by running `trans2` once, written exactly
as the engine constructs it. -/
def trans2Cost : Cost :=
  Cost.make ("Executation Cost " ++ trans2.name) 0
    (trans2.share_num * (trans2.execute_avg_price - trans2.determined_price) +
      Fee.total_fee { commission := 100 })
    0 (Fee.total_fee { commission := 100 })

/-- Witness for C3 on a one-operation history. -/
theorem claim_C3_cost_invariant_witness :
    trans2Cost ∈ (runOps TCAEngine.init [EngineOp.run trans2 true]).cost_results ∧
    (trans2Cost.execution_cost = trans2Cost.delay_cost + trans2Cost.trading_cost ∧
      trans2Cost.total_cost = trans2Cost.execution_cost + trans2Cost.opportunity_cost +
        trans2Cost.fee_cost) :=
  ⟨by
    simp [runOps, applyOp, ImplementationShortfallEngine.tca_run,
      ImplementationShortfallEngine.complete_execution, Transaction.is_fully_executed,
      TCAEngine.reset_result, TCAEngine.init, trans2, trans2Cost],
    claim_C3_cost_invariant [EngineOp.run trans2 true] trans2Cost (by
      simp [runOps, applyOp, ImplementationShortfallEngine.tca_run,
        ImplementationShortfallEngine.complete_execution, Transaction.is_fully_executed,
        TCAEngine.reset_result, TCAEngine.init, trans2, trans2Cost])⟩

theorem complete_execution_transactions (s : TCAEngine) (t : Transaction) :
    (ImplementationShortfallEngine.complete_execution s t).1.transactions = s.transactions := by
  cases hf : t.fee <;> simp [ImplementationShortfallEngine.complete_execution, hf]

theorem opportunity_cost_transactions (s : TCAEngine) (t : Transaction) :
    (ImplementationShortfallEngine.opportunity_cost s t).1.transactions = s.transactions := by
  cases hep : t.end_price <;> cases hf : t.fee <;>
    simp [ImplementationShortfallEngine.opportunity_cost, hep, hf]

theorem expanded_transactions (s : TCAEngine) (t : Transaction) :
    (ImplementationShortfallEngine.expanded_implementation_shortfall s t).1.transactions =
      s.transactions := by
  cases hep : t.end_price <;> cases hf : t.fee <;>
    simp [ImplementationShortfallEngine.expanded_implementation_shortfall, hep, hf]

theorem tca_run_transactions (s : TCAEngine) (t : Transaction) (b : Bool) :
    (ImplementationShortfallEngine.tca_run s t b).1.transactions =
      if b then [] else s.transactions := by
  have hs1 : (if b then s.reset_result else s).transactions = if b then [] else s.transactions := by
    cases b <;> simp [TCAEngine.reset_result]
  unfold ImplementationShortfallEngine.tca_run
  cases hfull : t.is_fully_executed with
  | true =>
    simp only [hfull, if_true]
    rw [complete_execution_transactions, hs1]
  | false =>
    simp only [hfull, Bool.false_eq_true, if_false]
    rcases hoc : ImplementationShortfallEngine.opportunity_cost
        (if b then s.reset_result else s) t with ⟨s2, e⟩
    have h2 : s2.transactions = if b then [] else s.transactions := by
      have := opportunity_cost_transactions (if b then s.reset_result else s) t
      rw [hoc] at this
      simpa [hs1] using this
    cases e with
    | none => simpa [expanded_transactions] using h2
    | some e => simpa using h2

theorem batch_tca_run_transactions (ts : List Transaction) :
    ∀ s : TCAEngine,
      (ImplementationShortfallEngine.batch_tca_run s ts).1.transactions = s.transactions := by
  induction ts with
  | nil => intro s; simp [ImplementationShortfallEngine.batch_tca_run]
  | cons t ts ih =>
    intro s
    unfold ImplementationShortfallEngine.batch_tca_run
    rcases hr : ImplementationShortfallEngine.tca_run s t false with ⟨s1, e⟩
    have h1 : s1.transactions = s.transactions := by
      have := tca_run_transactions s t false
      rw [hr] at this
      simpa using this
    cases e with
    | none => simpa [ih s1] using h1
    | some e => simpa using h1

theorem applyOp_transactions (s : TCAEngine) (op : EngineOp) (h : s.transactions = []) :
    (applyOp s op).transactions = [] := by
  cases op with
  | run t b =>
    have := tca_run_transactions s t b
    simp only [applyOp, this, h]
    cases b <;> simp
  | batch ts => simpa [applyOp, batch_tca_run_transactions ts s] using h
  | reset_result => simp [applyOp, TCAEngine.reset_result]

/-- Claim C7: `reset_result` empties the accumulated results and the
tracked transactions, can be applied to any state, and is idempotent. -/
theorem claim_C7_reset_result (s : TCAEngine) :
    (s.reset_result).cost_results = [] ∧ (s.reset_result).transactions = [] ∧
    (s.reset_result).reset_result = s.reset_result := by
  simp [TCAEngine.reset_result]

/-- Claim C10: starting from a freshly constructed engine, no sequence
of `tca_run`, `batch_tca_run` and `reset_result` calls ever makes the
`transactions` list non-empty. -/
theorem claim_C10_transactions_never_tracked (ops : List EngineOp) :
    (runOps TCAEngine.init ops).transactions = [] := by
  have key : ∀ (ops : List EngineOp) (s : TCAEngine), s.transactions = [] →
      (runOps s ops).transactions = [] := by
    intro ops
    induction ops with
    | nil => intro s h; simpa [runOps] using h
    | cons op ops ih =>
      intro s h
      simp only [runOps]
      exact ih (applyOp s op) (applyOp_transactions s op h)
  exact key ops TCAEngine.init rfl

/-- A transaction with no fee attached (fully executed otherwise). -/
def transNoFee : Transaction :=
  { name := "t3", share_num := 5000, execute_num := 5000, delay_price := 41/4,
    execute_avg_price := 21/2, determined_price := 10, end_price := some 11, fee := none }

/-- A partially executed transaction with no end price. -/
def transPartialNoEnd : Transaction :=
  { name := "t4", share_num := 5000, execute_num := 4000, delay_price := 41/4,
    execute_avg_price := 21/2, determined_price := 10, end_price := none,
    fee := some { commission := 80 } }

/-- Claim C4: when the fee is missing, or the transaction is partially
executed with a missing end price, `tca_run` with `reset = false` raises
an error and appends nothing: the state is exactly as before the call. -/
theorem claim_C4_error_leaves_state_unchanged (s : TCAEngine) (t : Transaction)
    (h : t.fee = none ∨ (t.is_fully_executed = false ∧ t.end_price = none)) :
    (ImplementationShortfallEngine.tca_run s t false).1 = s ∧
    (ImplementationShortfallEngine.tca_run s t false).2 ≠ none := by
  rcases h with hf | ⟨hfull, hep⟩
  · cases hfull : t.is_fully_executed with
    | true =>
      refine ⟨?_, ?_⟩ <;>
        simp [ImplementationShortfallEngine.tca_run, hfull,
          ImplementationShortfallEngine.complete_execution, hf]
    | false =>
      cases hep : t.end_price with
      | none =>
        refine ⟨?_, ?_⟩ <;>
          simp [ImplementationShortfallEngine.tca_run, hfull,
            ImplementationShortfallEngine.opportunity_cost, hep]
      | some ep =>
        refine ⟨?_, ?_⟩ <;>
          simp [ImplementationShortfallEngine.tca_run, hfull,
            ImplementationShortfallEngine.opportunity_cost, hep, hf]
  · refine ⟨?_, ?_⟩ <;>
      simp [ImplementationShortfallEngine.tca_run, hfull,
        ImplementationShortfallEngine.opportunity_cost, hep]

/-- Witness for C4 at a transaction with a missing fee. -/
theorem claim_C4_error_leaves_state_unchanged_witness :
    (transNoFee.fee = none ∨
      (transNoFee.is_fully_executed = false ∧ transNoFee.end_price = none)) ∧
    ((ImplementationShortfallEngine.tca_run TCAEngine.init transNoFee false).1 =
        TCAEngine.init ∧
      (ImplementationShortfallEngine.tca_run TCAEngine.init transNoFee false).2 ≠ none) :=
  ⟨Or.inl rfl, claim_C4_error_leaves_state_unchanged TCAEngine.init transNoFee (Or.inl rfl)⟩

/-- With `reset = true` the state is cleared first, so the run result
does not depend on the starting state at all. -/
theorem tca_run_reset_state_independent (x y : TCAEngine) (t : Transaction) :
    ImplementationShortfallEngine.tca_run x t true =
      ImplementationShortfallEngine.tca_run y t true := rfl

/-- Claim C6: for a valid transaction (fee present, and an end price
present unless fully executed), running `tca_run` with `reset = true`
twice in succession leaves exactly the state of a single call. -/
theorem claim_C6_tca_run_reset_idempotent (s : TCAEngine) (t : Transaction)
    (_hf : t.fee.isSome = true)
    (_hv : t.is_fully_executed = true ∨ t.end_price.isSome = true) :
    (ImplementationShortfallEngine.tca_run
        (ImplementationShortfallEngine.tca_run s t true).1 t true).1 =
      (ImplementationShortfallEngine.tca_run s t true).1 :=
  congrArg Prod.fst
    (tca_run_reset_state_independent (ImplementationShortfallEngine.tca_run s t true).1 s t)

/-- Witness for C6 at the sample partially executed transaction. -/
theorem claim_C6_tca_run_reset_idempotent_witness :
    trans1.fee.isSome = true ∧
    (trans1.is_fully_executed = true ∨ trans1.end_price.isSome = true) ∧
    (ImplementationShortfallEngine.tca_run
        (ImplementationShortfallEngine.tca_run TCAEngine.init trans1 true).1 trans1 true).1 =
      (ImplementationShortfallEngine.tca_run TCAEngine.init trans1 true).1 :=
  ⟨rfl, Or.inr rfl,
    claim_C6_tca_run_reset_idempotent TCAEngine.init trans1 rfl (Or.inr rfl)⟩

/-- Counterexample to C8 as stated: the label written by the code is
"Executation Cost ...", not "Execution Cost ...". -/
theorem claim_C8_counterexample :
    ((ImplementationShortfallEngine.tca_run TCAEngine.init trans2 true).1.cost_results.map
        Cost.cost_name) ≠ ["Execution Cost " ++ trans2.name] := by
  decide

/-- Claim C8 amended: for every fully executed transaction with a fee,
the single emitted record's `cost_name` is the string
"Executation Cost " followed by the transaction's label. -/
theorem claim_C8_amended_cost_name (s : TCAEngine) (t : Transaction) (f : Fee) (b : Bool)
    (hf : t.fee = some f) (he : t.execute_num = t.share_num) :
    ((ImplementationShortfallEngine.tca_run s t b).1.cost_results.map Cost.cost_name) =
      ((if b then [] else s.cost_results).map Cost.cost_name) ++
        ["Executation Cost " ++ t.name] := by
  have hfull : t.is_fully_executed = true := by
    simp [Transaction.is_fully_executed, he]
  cases b <;>
    simp [ImplementationShortfallEngine.tca_run, hfull,
      ImplementationShortfallEngine.complete_execution, hf, TCAEngine.reset_result, Cost.make]

/-- Witness for the amended C8 at the sample fully executed
transaction. -/
theorem claim_C8_amended_cost_name_witness :
    trans2.fee = some { commission := 100 } ∧ trans2.execute_num = trans2.share_num ∧
    ((ImplementationShortfallEngine.tca_run TCAEngine.init trans2 true).1.cost_results.map
        Cost.cost_name) = [] ++ ["Executation Cost " ++ trans2.name] :=
  ⟨rfl, by decide,
    claim_C8_amended_cost_name TCAEngine.init trans2 { commission := 100 } true rfl
      (by decide)⟩

/-- Counterexample to C9 as stated: a partially executed transaction
with no end price makes `is_valition` return `False`, not `None`. -/
theorem claim_C9_counterexample :
    transPartialNoEnd.is_fully_executed = false ∧ transPartialNoEnd.end_price = none ∧
    transPartialNoEnd.is_valition ≠ none := by
  refine ⟨by decide, rfl, by decide⟩

/-- Claim C9 amended: `is_valition` returns `True` exactly when the
transaction is partially executed with an end price, `False` exactly
when it is partially executed without an end price, and `None` exactly
when it is fully executed. -/
theorem claim_C9_amended_is_valition (t : Transaction) :
    (t.is_valition = some true ↔
      t.is_fully_executed = false ∧ t.end_price.isSome = true) ∧
    (t.is_valition = some false ↔ t.is_fully_executed = false ∧ t.end_price = none) ∧
    (t.is_valition = none ↔ t.is_fully_executed = true) := by
  unfold Transaction.is_valition
  cases hfull : t.is_fully_executed <;> cases hep : t.end_price <;> simp [hfull, hep]

/-- The Cost records a single transaction produces: the accumulated
results of a clean single run. -/
def singleRunCosts (t : Transaction) : List Cost :=
  (ImplementationShortfallEngine.tca_run TCAEngine.init t true).1.cost_results

theorem tca_run_false_append (s : TCAEngine) (t : Transaction)
    (hf : t.fee.isSome = true)
    (hv : t.is_fully_executed = true ∨ t.end_price.isSome = true) :
    ImplementationShortfallEngine.tca_run s t false =
      ({ transactions := s.transactions,
         cost_results := s.cost_results ++ singleRunCosts t }, none) := by
  rcases Option.isSome_iff_exists.mp hf with ⟨f, hfe⟩
  cases hfull : t.is_fully_executed with
  | true =>
    simp [ImplementationShortfallEngine.tca_run, hfull, singleRunCosts,
      ImplementationShortfallEngine.complete_execution, hfe, TCAEngine.reset_result,
      TCAEngine.init]
  | false =>
    have hep' : t.end_price.isSome = true := by
      rcases hv with h | h
      · rw [hfull] at h
        exact absurd h (by simp)
      · exact h
    rcases Option.isSome_iff_exists.mp hep' with ⟨ep, hepe⟩
    simp [ImplementationShortfallEngine.tca_run, hfull, singleRunCosts,
      ImplementationShortfallEngine.opportunity_cost,
      ImplementationShortfallEngine.expanded_implementation_shortfall, hfe, hepe,
      TCAEngine.reset_result, TCAEngine.init]

theorem singleRunCosts_length (t : Transaction)
    (hf : t.fee.isSome = true)
    (hv : t.is_fully_executed = true ∨ t.end_price.isSome = true) :
    (singleRunCosts t).length = if t.is_fully_executed then 1 else 2 := by
  rcases Option.isSome_iff_exists.mp hf with ⟨f, hfe⟩
  cases hfull : t.is_fully_executed with
  | true =>
    simp [singleRunCosts, ImplementationShortfallEngine.tca_run, hfull,
      ImplementationShortfallEngine.complete_execution, hfe, TCAEngine.reset_result,
      TCAEngine.init]
  | false =>
    have hep' : t.end_price.isSome = true := by
      rcases hv with h | h
      · rw [hfull] at h
        exact absurd h (by simp)
      · exact h
    rcases Option.isSome_iff_exists.mp hep' with ⟨ep, hepe⟩
    simp [singleRunCosts, ImplementationShortfallEngine.tca_run, hfull,
      ImplementationShortfallEngine.opportunity_cost,
      ImplementationShortfallEngine.expanded_implementation_shortfall, hfe, hepe,
      TCAEngine.reset_result, TCAEngine.init]

theorem batch_tca_run_append (ts : List Transaction) :
    ∀ s : TCAEngine,
      (∀ t ∈ ts, t.fee.isSome = true ∧
        (t.is_fully_executed = true ∨ t.end_price.isSome = true)) →
      ImplementationShortfallEngine.batch_tca_run s ts =
        ({ transactions := s.transactions,
           cost_results := s.cost_results ++ (ts.map singleRunCosts).flatten }, none) := by
  induction ts with
  | nil =>
    intro s _h
    simp [ImplementationShortfallEngine.batch_tca_run]
  | cons t ts ih =>
    intro s h
    unfold ImplementationShortfallEngine.batch_tca_run
    rw [tca_run_false_append s t (h t (by simp)).1 (h t (by simp)).2]
    simp only []
    rw [ih _ (fun t' ht' => h t' (by simp [ht']))]
    simp [List.append_assoc]

/-- Claim C5: `batch_tca_run` runs each valid transaction in order with
`reset = false`, never clearing, so the engine ends with the prior
results followed by each transaction's records in input order — one per
fully executed transaction and two per partially executed one. -/
theorem claim_C5_batch_accumulates (s : TCAEngine) (ts : List Transaction)
    (h : ∀ t ∈ ts, t.fee.isSome = true ∧
      (t.is_fully_executed = true ∨ t.end_price.isSome = true)) :
    ImplementationShortfallEngine.batch_tca_run s ts =
      ({ transactions := s.transactions,
         cost_results := s.cost_results ++ (ts.map singleRunCosts).flatten }, none) ∧
    (ImplementationShortfallEngine.batch_tca_run s ts).1.cost_results.length =
      s.cost_results.length +
        (ts.map (fun t => if t.is_fully_executed then 1 else 2)).sum := by
  have hlen : ∀ us : List Transaction,
      (∀ t ∈ us, t.fee.isSome = true ∧
        (t.is_fully_executed = true ∨ t.end_price.isSome = true)) →
      (us.map singleRunCosts).flatten.length =
        (us.map (fun t => if t.is_fully_executed then 1 else 2)).sum := by
    intro us
    induction us with
    | nil => intro _h; simp
    | cons t' us' ih =>
      intro h'
      simp only [List.map_cons, List.flatten_cons, List.length_append, List.sum_cons]
      rw [singleRunCosts_length t' (h' t' (by simp)).1 (h' t' (by simp)).2,
        ih (fun u hu => h' u (by simp [hu]))]
  have hmain := batch_tca_run_append ts s h
  refine ⟨hmain, ?_⟩
  rw [hmain]
  simp only [List.length_append]
  rw [hlen ts h]

/-- Witness for C5 on the batch `[trans2, trans1]` from a fresh
engine. -/
theorem claim_C5_batch_accumulates_witness :
    (∀ t ∈ [trans2, trans1], t.fee.isSome = true ∧
      (t.is_fully_executed = true ∨ t.end_price.isSome = true)) ∧
    (ImplementationShortfallEngine.batch_tca_run TCAEngine.init [trans2, trans1] =
      ({ transactions := [],
         cost_results := [] ++ ([trans2, trans1].map singleRunCosts).flatten }, none) ∧
    (ImplementationShortfallEngine.batch_tca_run TCAEngine.init [trans2, trans1]).1.cost_results.length =
      ([] : List Cost).length +
        ([trans2, trans1].map (fun t => if t.is_fully_executed then 1 else 2)).sum) :=
  ⟨by decide, claim_C5_batch_accumulates TCAEngine.init [trans2, trans1] (by decide)⟩
